import Mathlib

/-!
Verification development for the book-recommendation-system repository.

Strings from the Python source are modelled as `List Char`.  Python `None`
and pandas `NaN` are modelled as `Option.none`.  Python floats are modelled
as exact rationals `ℚ` (the scoring code only performs `+`, `*`, `/` on
decimal literals, so rational arithmetic is the intended value semantics).

The source files embedded here:
- src/pipeline/clean.py           (normalize_text)
- src/pipeline/transformation.py  (book_key, clean_text, load_existing,
                                   save_atomic, query_google_books,
                                   process_row, run_transformation)
- src/recommender/advanced_transformer_recommender.py
                                  (extract_page_count, CANDIDATE_POOL,
                                   AdvancedTransformerRecommender.recommend)
- src/recommender/transformer_recommender.py
                                  (extract_page_count, hybrid_rerank)
-/

/-- ASCII model of Python's whitespace class (matched by `str.strip()` and
the regex `\s`): space, tab, newline, vertical tab, form feed, carriage
return. -/
def isWs (c : Char) : Bool :=
  c = ' ' || c = '\t' || c = '\n' || c = '\x0b' || c = '\x0c' || c = '\r'

/-- ASCII model of Python's `str.lower()` on a single character: the 26
uppercase ASCII letters map to their lowercase forms; every other character
is unchanged. -/
def lowerChar : Char → Char
  | 'A' => 'a' | 'B' => 'b' | 'C' => 'c' | 'D' => 'd' | 'E' => 'e'
  | 'F' => 'f' | 'G' => 'g' | 'H' => 'h' | 'I' => 'i' | 'J' => 'j'
  | 'K' => 'k' | 'L' => 'l' | 'M' => 'm' | 'N' => 'n' | 'O' => 'o'
  | 'P' => 'p' | 'Q' => 'q' | 'R' => 'r' | 'S' => 's' | 'T' => 't'
  | 'U' => 'u' | 'V' => 'v' | 'W' => 'w' | 'X' => 'x' | 'Y' => 'y'
  | 'Z' => 'z'
  | c => c

/-- Model of Python `str.lower()` applied to a whole string. -/
def lowerStr (s : List Char) : List Char := s.map lowerChar

/-- Model of the regex substitution `re.sub(r"\s+", " ", s)`: every maximal
run of whitespace characters is replaced by a single space.  The Boolean
flag records whether the previously consumed character was part of a
whitespace run (in which case further whitespace is absorbed into the
already-emitted space). -/
def collapseGo : Bool → List Char → List Char
  | _, [] => []
  | prevWs, c :: rest =>
    if isWs c then
      if prevWs then collapseGo true rest else ' ' :: collapseGo true rest
    else c :: collapseGo false rest

/-- Collapse whitespace runs, starting outside a run. -/
def collapseWs (l : List Char) : List Char := collapseGo false l

/-- Drop trailing whitespace characters (the right half of `str.strip()`). -/
def dropTrailingWs : List Char → List Char
  | [] => []
  | c :: rest =>
    match dropTrailingWs rest with
    | [] => if isWs c then [] else [c]
    | x :: xs => c :: x :: xs

/-- Model of Python `str.strip()`: drop leading and trailing whitespace. -/
def stripList (l : List Char) : List Char := dropTrailingWs (l.dropWhile isWs)

/-- Embedding of `normalize_text` from src/pipeline/clean.py:
`None` (pandas NA) maps to `None`; otherwise the value is stripped,
lowercased and its internal whitespace runs are collapsed to single
spaces (`value.strip().lower()` followed by `re.sub(r"\s+", " ", value)`). -/
def normalize_text : Option (List Char) → Option (List Char)
  | none => none
  | some s => some (collapseWs (lowerStr (stripList s)))

/-- Embedding of `clean_text` from src/pipeline/transformation.py:
falsy input (`None`, NA, or the empty string) maps to `None`; otherwise
the text is stripped and whitespace runs are collapsed
(`re.sub(r"\s+", " ", str(text).strip())`). -/
def clean_text : Option (List Char) → Option (List Char)
  | none => none
  | some [] => none
  | some (c :: cs) => some (collapseWs (stripList (c :: cs)))

/-- Characters inside the class `[a-z0-9 ]` named by the spec's
`normalize_title` description. -/
def isAllowed (c : Char) : Bool :=
  ('a' ≤ c && c ≤ 'z') || ('0' ≤ c && c ≤ '9') || c = ' '

/-- Modelled from the spec's §4.1 wording for `normalize_title` (the code's
`normalize_text` does not drop characters; this definition exists only to
compare the spec's words against the code): lowercase, strip, collapse
internal whitespace, drop characters outside `[a-z0-9 space]`. -/
def specNormalizeTitle (s : List Char) : List Char :=
  (collapseWs (lowerStr (stripList s))).filter isAllowed

/-! Character-level lemmas. -/

/-- The possible outputs of `lowerChar` on the uppercase branch. -/
def lowerOutputs : List Char :=
  ['a','b','c','d','e','f','g','h','i','j','k','l','m',
   'n','o','p','q','r','s','t','u','v','w','x','y','z']

/-- Every character is either fixed by `lowerChar` or mapped into the 26
lowercase letters. -/
theorem lowerChar_cases (c : Char) : lowerChar c = c ∨ lowerChar c ∈ lowerOutputs := by
  unfold lowerChar
  split <;> first | exact Or.inl rfl | exact Or.inr (by decide)

/-- The lowercase letters are fixed by `lowerChar`. -/
theorem lowerChar_fixes_lowercase : ∀ d ∈ lowerOutputs, lowerChar d = d := by decide

/-- Lowercasing a single character is idempotent. -/
theorem lowerChar_idem (c : Char) : lowerChar (lowerChar c) = lowerChar c := by
  rcases lowerChar_cases c with h | h
  · rw [h]; exact h
  · exact lowerChar_fixes_lowercase _ h

/-- Lowercasing a character never produces whitespace and never consumes
whitespace: `isWs` is invariant under `lowerChar`. -/
theorem lowerChar_isWs (c : Char) : isWs (lowerChar c) = isWs c := by
  unfold lowerChar
  split <;> rfl

/-- Lowercasing fixes the space character. -/
theorem lowerChar_space : lowerChar ' ' = ' ' := rfl

/-! Lemmas about whitespace collapsing. -/

/-- Every character emitted by `collapseGo` is either a space or came from
the input. -/
theorem mem_collapseGo {c : Char} : ∀ (b : Bool) (l : List Char), c ∈ collapseGo b l → c = ' ' ∨ c ∈ l := by
  intro b l
  induction l generalizing b with
  | nil => intro h; simp [collapseGo] at h
  | cons d t ih =>
    intro h
    simp only [collapseGo] at h
    by_cases hws : isWs d
    · simp only [hws, if_true] at h
      cases b with
      | true =>
        rcases ih true h with h1 | h1
        · exact Or.inl h1
        · exact Or.inr (List.mem_cons_of_mem _ h1)
      | false =>
        rcases List.mem_cons.mp h with h1 | h1
        · exact Or.inl h1
        · rcases ih true h1 with h2 | h2
          · exact Or.inl h2
          · exact Or.inr (List.mem_cons_of_mem _ h2)
    · simp only [hws, if_false, Bool.false_eq_true] at h
      rcases List.mem_cons.mp h with h1 | h1
      · exact Or.inr (h1 ▸ List.mem_cons_self d t)
      · rcases ih false h1 with h2 | h2
        · exact Or.inl h2
        · exact Or.inr (List.mem_cons_of_mem _ h2)

/-- After consuming whitespace (flag `true`), the next emitted character is
never whitespace. -/
theorem head_collapseGo_true : ∀ (l : List Char) (c : Char), (collapseGo true l).head? = some c → isWs c = false := by
  intro l
  induction l with
  | nil => intro c h; simp [collapseGo] at h
  | cons d t ih =>
    intro c h
    simp only [collapseGo] at h
    by_cases hws : isWs d
    · simp only [hws, if_true] at h
      exact ih c h
    · simp only [hws, if_false, Bool.false_eq_true] at h
      simp only [List.head?_cons, Option.some.injEq] at h
      rw [← h]
      exact Bool.eq_false_iff.mpr hws

/-- When the input starts with a non-whitespace character, collapsing
preserves that head. -/
theorem head_collapseGo_false {l : List Char} {c : Char} (h : l.head? = some c) (hc : isWs c = false) :
    (collapseGo false l).head? = some c := by
  cases l with
  | nil => simp at h
  | cons d t =>
    simp only [List.head?_cons, Option.some.injEq] at h
    subst h
    simp [collapseGo, hc]

/-- Auxiliary: every whitespace character in the output of `collapseGo` is
the plain space. -/
theorem allWsSpace_collapseGo : ∀ (b : Bool) (l : List Char) (c : Char), c ∈ collapseGo b l → isWs c = true → c = ' ' := by
  intro b l
  induction l generalizing b with
  | nil => intro c h; simp [collapseGo] at h
  | cons d t ih =>
    intro c h hws
    simp only [collapseGo] at h
    by_cases hd : isWs d
    · simp only [hd, if_true] at h
      cases b with
      | true => exact ih true c h hws
      | false =>
        rcases List.mem_cons.mp h with h1 | h1
        · exact h1
        · exact ih true c h1 hws
    · simp only [hd, if_false, Bool.false_eq_true] at h
      rcases List.mem_cons.mp h with h1 | h1
      · subst h1; exact absurd hws (by simpa using hd)
      · exact ih false c h1 hws

/-- Boolean predicate: the list contains no two adjacent whitespace
characters. -/
def noWsPair : List Char → Bool
  | [] => true
  | [_] => true
  | a :: b :: t => (!(isWs a && isWs b)) && noWsPair (b :: t)

/-- Prepending a character whose pairing with the head is allowed keeps
`noWsPair`. -/
theorem noWsPair_cons {l : List Char} {a : Char} (hl : noWsPair l = true)
    (h : ∀ x, l.head? = some x → (isWs a && isWs x) = false) : noWsPair (a :: l) = true := by
  cases l with
  | nil => rfl
  | cons b t =>
    have hb := h b (by simp)
    simp [noWsPair, hb, hl]

/-- The output of `collapseGo` never contains two adjacent whitespace
characters. -/
theorem noWsPair_collapseGo : ∀ (b : Bool) (l : List Char), noWsPair (collapseGo b l) = true := by
  intro b l
  induction l generalizing b with
  | nil => simp [collapseGo, noWsPair]
  | cons d t ih =>
    simp only [collapseGo]
    by_cases hd : isWs d
    · simp only [hd, if_true]
      cases b with
      | true => exact ih true
      | false =>
        refine noWsPair_cons (ih true) ?_
        intro x hx
        have := head_collapseGo_true t x hx
        simp [this]
    · simp only [hd, if_false, Bool.false_eq_true]
      refine noWsPair_cons (ih false) ?_
      intro x hx
      simp [Bool.eq_false_iff.mpr hd]

/-- A list already in collapsed form (all whitespace is a single isolated
space) is fixed by `collapseGo false`. -/
theorem collapseGo_eq_self : ∀ (l : List Char), (∀ c ∈ l, isWs c = true → c = ' ') → noWsPair l = true → collapseGo false l = l := by
  intro l
  induction l with
  | nil => intro _ _; rfl
  | cons d t ih =>
    intro hall hpair
    by_cases hd : isWs d
    · have hdsp : d = ' ' := hall d (List.mem_cons_self d t) hd
      cases t with
      | nil => simp [collapseGo, hd, hdsp]
      | cons e u =>
        have het : isWs e = false := by
          have := hpair
          simp only [noWsPair, Bool.and_eq_true, Bool.not_eq_true'] at this
          rcases Bool.and_eq_false_iff.mp this.1 with h1 | h1
          · exact absurd hd (by simp [h1])
          · exact h1
        have hpt : noWsPair (e :: u) = true := by
          simp only [noWsPair, Bool.and_eq_true] at hpair
          exact hpair.2
        have hallt : ∀ c ∈ e :: u, isWs c = true → c = ' ' := by
          intro c hc
          exact hall c (List.mem_cons_of_mem _ hc)
        have ht := ih hallt hpt
        simp only [collapseGo, hd, if_true, het, Bool.false_eq_true, if_false]
        rw [hdsp]
        have : collapseGo false u = u := by
          cases u with
          | nil => rfl
          | cons f v =>
            have h1 : collapseGo false (e :: f :: v) = e :: f :: v := ht
            simp only [collapseGo, het, Bool.false_eq_true, if_false, List.cons.injEq] at h1
            exact h1.2
        simp [this]
    · have hde : isWs d = false := Bool.eq_false_iff.mpr hd
      have hpt : noWsPair t = true := by
        cases t with
        | nil => rfl
        | cons e u =>
          simp only [noWsPair, Bool.and_eq_true] at hpair
          exact hpair.2
      have hallt : ∀ c ∈ t, isWs c = true → c = ' ' := by
        intro c hc
        exact hall c (List.mem_cons_of_mem _ hc)
      simp [collapseGo, hde, ih hallt hpt]

/-! Lemmas about stripping. -/

/-- Dropping a prefix by a predicate leaves a head not satisfying it. -/
theorem head_dropWhile_isWs : ∀ (l : List Char) (c : Char), (l.dropWhile isWs).head? = some c → isWs c = false := by
  intro l
  induction l with
  | nil => intro c h; simp [List.dropWhile] at h
  | cons d t ih =>
    intro c h
    by_cases hd : isWs d
    · rw [List.dropWhile_cons_of_pos hd] at h
      exact ih c h
    · rw [List.dropWhile_cons_of_neg hd] at h
      simp only [List.head?_cons, Option.some.injEq] at h
      rw [← h]
      exact Bool.eq_false_iff.mpr hd

/-- If the trailing-whitespace drop leaves a nonempty list, its head equals
the original head. -/
theorem head_dropTrailingWs : ∀ (l : List Char) (c : Char), (dropTrailingWs l).head? = some c → l.head? = some c := by
  intro l
  induction l with
  | nil => intro c h; simp [dropTrailingWs] at h
  | cons d t _ =>
    intro c h
    simp only [dropTrailingWs] at h
    cases hrec : dropTrailingWs t with
    | nil =>
      rw [hrec] at h
      by_cases hd : isWs d
      · simp [hd] at h
      · simp only [hd, Bool.false_eq_true, if_false, List.head?_cons, Option.some.injEq] at h
        simp [← h]
    | cons x xs =>
      rw [hrec] at h
      simp only [List.head?_cons, Option.some.injEq] at h
      simp [← h]

/-- The last character surviving the trailing-whitespace drop is never
whitespace. -/
theorem getLast_dropTrailingWs : ∀ (l : List Char) (c : Char), (dropTrailingWs l).getLast? = some c → isWs c = false := by
  intro l
  induction l with
  | nil => intro c h; simp [dropTrailingWs] at h
  | cons d t ih =>
    intro c h
    simp only [dropTrailingWs] at h
    cases hrec : dropTrailingWs t with
    | nil =>
      rw [hrec] at h
      by_cases hd : isWs d
      · simp [hd] at h
      · simp only [hd, Bool.false_eq_true, if_false] at h
        simp only [List.getLast?_singleton, Option.some.injEq] at h
        rw [← h]
        exact Bool.eq_false_iff.mpr hd
    | cons x xs =>
      rw [hrec] at h
      rw [List.getLast?_cons_cons] at h
      exact ih c (hrec ▸ h)

/-- A list whose last character is not whitespace is fixed by the
trailing-whitespace drop. -/
theorem dropTrailingWs_eq_self : ∀ (l : List Char), (∀ c, l.getLast? = some c → isWs c = false) → dropTrailingWs l = l := by
  intro l
  induction l with
  | nil => intro _; rfl
  | cons d t ih =>
    intro h
    cases t with
    | nil =>
      have hd := h d (by simp)
      simp [dropTrailingWs, hd]
    | cons e u =>
      have ht : dropTrailingWs (e :: u) = e :: u := by
        refine ih ?_
        intro c hc
        refine h c ?_
        rw [List.getLast?_cons_cons]
        exact hc
      show (match dropTrailingWs (e :: u) with
            | [] => if isWs d = true then [] else [d]
            | x :: xs => d :: x :: xs) = d :: e :: u
      rw [ht]

/-- A list whose head is not whitespace is fixed by the leading drop. -/
theorem dropWhile_isWs_eq_self : ∀ (l : List Char), (∀ c, l.head? = some c → isWs c = false) → l.dropWhile isWs = l := by
  intro l h
  cases l with
  | nil => rfl
  | cons d t =>
    have hd := h d (by simp)
    rw [List.dropWhile_cons_of_neg (by simp [hd])]

/-- A list with non-whitespace head and last characters is fixed by
`stripList`. -/
theorem stripList_eq_self (l : List Char)
    (hh : ∀ c, l.head? = some c → isWs c = false)
    (hl : ∀ c, l.getLast? = some c → isWs c = false) : stripList l = l := by
  unfold stripList
  rw [dropWhile_isWs_eq_self l hh]
  exact dropTrailingWs_eq_self l hl

/-- One-step unfolding of `collapseGo` on a cons cell. -/
theorem collapseGo_cons (b : Bool) (c : Char) (rest : List Char) :
    collapseGo b (c :: rest) =
      if isWs c then (if b then collapseGo true rest else ' ' :: collapseGo true rest)
      else c :: collapseGo false rest := rfl

/-- The last character of `collapseGo` output is not whitespace provided the
input's last character is not. -/
theorem getLast_collapseGo : ∀ (l : List Char) (b : Bool) (a : Char), l.getLast? = some a → isWs a = false →
    ∃ a2, (collapseGo b l).getLast? = some a2 ∧ isWs a2 = false := by
  intro l
  induction l with
  | nil => intro b a h ha; simp at h
  | cons d t ih =>
    intro b a h ha
    cases t with
    | nil =>
      have hda : d = a := by simpa using h
      subst hda
      refine ⟨d, ?_, ha⟩
      simp [collapseGo, ha]
    | cons e u =>
      rw [List.getLast?_cons_cons] at h
      by_cases hd : isWs d
      · rcases ih true a h ha with ⟨a2, ha2, hws2⟩
        refine ⟨a2, ?_, hws2⟩
        rw [collapseGo_cons, if_pos hd]
        cases b with
        | true => rw [if_pos rfl]; exact ha2
        | false =>
          rw [if_neg (by simp)]
          cases hcg : collapseGo true (e :: u) with
          | nil => rw [hcg] at ha2; simp at ha2
          | cons y ys =>
            rw [hcg] at ha2
            rw [List.getLast?_cons_cons]
            exact ha2
      · rcases ih false a h ha with ⟨a2, ha2, hws2⟩
        refine ⟨a2, ?_, hws2⟩
        rw [collapseGo_cons, if_neg hd]
        cases hcg : collapseGo false (e :: u) with
        | nil => rw [hcg] at ha2; simp at ha2
        | cons y ys =>
          rw [hcg] at ha2
          rw [List.getLast?_cons_cons]
          exact ha2

/-- A map whose function fixes every element of the list is the identity on
that list. -/
theorem list_map_eq_self {α : Type} (f : α → α) (l : List α) (h : ∀ c ∈ l, f c = c) : l.map f = l := by
  induction l with
  | nil => rfl
  | cons d t ih =>
    rw [List.map_cons, h d (List.mem_cons_self d t), ih (fun c hc => h c (List.mem_cons_of_mem _ hc))]

/-- Core idempotence of the strip-lower-collapse chain used by
`normalize_text`. -/
theorem normalize_chain_idem (s : List Char) :
    collapseWs (lowerStr (stripList (collapseWs (lowerStr (stripList s))))) = collapseWs (lowerStr (stripList s)) := by
  set z := lowerStr (stripList s) with hz
  have hzhead : ∀ c, z.head? = some c → isWs c = false := by
    intro c hc
    rw [hz, lowerStr, List.head?_map] at hc
    cases hs : (stripList s).head? with
    | none => rw [hs] at hc; exact Option.noConfusion hc
    | some d =>
      rw [hs] at hc
      simp only [Option.map_some', Option.some.injEq] at hc
      have hd : isWs d = false :=
        head_dropWhile_isWs _ d (head_dropTrailingWs _ d hs)
      rw [← hc, lowerChar_isWs]
      exact hd
  have hzlast : ∀ c, z.getLast? = some c → isWs c = false := by
    intro c hc
    rw [hz, lowerStr, List.getLast?_map] at hc
    cases hs : (stripList s).getLast? with
    | none => rw [hs] at hc; exact Option.noConfusion hc
    | some d =>
      rw [hs] at hc
      simp only [Option.map_some', Option.some.injEq] at hc
      have hd : isWs d = false := getLast_dropTrailingWs _ d hs
      rw [← hc, lowerChar_isWs]
      exact hd
  set y := collapseWs z with hy
  have hyhead : ∀ c, y.head? = some c → isWs c = false := by
    intro c hc
    cases hzc : z with
    | nil => rw [hy, collapseWs, hzc] at hc; simp [collapseGo] at hc
    | cons d t =>
      have hd : isWs d = false := hzhead d (by rw [hzc]; rfl)
      have hh : (collapseGo false z).head? = some d :=
        head_collapseGo_false (by rw [hzc]; rfl) hd
      rw [hy, collapseWs, hh] at hc
      cases hc
      exact hd
  have hylast : ∀ c, y.getLast? = some c → isWs c = false := by
    intro c hc
    cases hzc : z with
    | nil => rw [hy, collapseWs, hzc] at hc; simp [collapseGo] at hc
    | cons d t =>
      have hgl : ∃ a, z.getLast? = some a := by
        rw [hzc]
        exact ⟨(d :: t).getLast (by simp), List.getLast?_eq_getLast _ _⟩
      rcases hgl with ⟨a, hga⟩
      have hwa : isWs a = false := hzlast a hga
      rcases getLast_collapseGo z false a hga hwa with ⟨a2, ha2, hws2⟩
      rw [hy, collapseWs, ha2] at hc
      cases hc
      exact hws2
  have h1 : stripList y = y := stripList_eq_self y hyhead hylast
  have h2 : lowerStr y = y := by
    refine list_map_eq_self _ _ ?_
    intro c hcy
    have hmem : c = ' ' ∨ c ∈ z := mem_collapseGo false z (by rw [hy, collapseWs] at hcy; exact hcy)
    rcases hmem with h | h
    · rw [h]; exact lowerChar_space
    · rw [hz, lowerStr] at h
      rcases List.mem_map.mp h with ⟨d, _, hd⟩
      rw [← hd]
      exact lowerChar_idem d
  have h3 : collapseWs y = y := by
    rw [collapseWs]
    refine collapseGo_eq_self y ?_ ?_
    · intro c hcm hws
      exact allWsSpace_collapseGo false z c (by rw [hy, collapseWs] at hcm; exact hcm) hws
    · have := noWsPair_collapseGo false z
      rw [hy, collapseWs]
      exact this
  calc collapseWs (lowerStr (stripList y)) = collapseWs (lowerStr y) := by rw [h1]
    _ = collapseWs y := by rw [h2]
    _ = y := h3

/-- Idempotence of `normalize_text` on every input (including the NA
input). -/
theorem normalize_text_idem (o : Option (List Char)) : normalize_text (normalize_text o) = normalize_text o := by
  cases o with
  | none => rfl
  | some s =>
    simp only [normalize_text]
    rw [normalize_chain_idem]

/-! Embedding of the enrichment orchestrator (src/pipeline/transformation.py). -/

/-- Placeholder used by `book_key` when the ISBN is falsy. -/
def NOISBN : List Char := ['N','O','I','S','B','N']

/-- Python truthiness filter on an optional string: `None` and the empty
string are falsy (this models `isbn or "NOISBN"` and `if isbn:`). -/
def strTruthy : Option (List Char) → Option (List Char)
  | some (c :: cs) => some (c :: cs)
  | _ => none

/-- Embedding of `book_key` from src/pipeline/transformation.py:
`isbn = isbn or "NOISBN"; return f"{isbn}|{title.lower()}"`.  Note the code
applies only `str.lower()` to the title (no stripping, no whitespace
collapsing, no character filtering). -/
def book_key (isbn : Option (List Char)) (title : List Char) : List Char :=
  (match strTruthy isbn with
   | some i => i
   | none => NOISBN) ++ '|' :: lowerStr title

/-- Modelled from the spec's §4.1 formula for `book_key`
(`(isbn or "NOISBN") + "|" + normalize_title(title)`), for comparison with
the code's `book_key`. -/
def spec_book_key (isbn : Option (List Char)) (title : List Char) : List Char :=
  (match strTruthy isbn with
   | some i => i
   | none => NOISBN) ++ '|' :: specNormalizeTitle title

/-- A row of the cleaned input CSV, with the columns the enrichment stage
reads.  Missing (NaN) cells are `none`. -/
structure Row where
  record_id : Nat
  title : List Char
  isbn : Option (List Char)
  authors : Option (List Char)
  accession_no : Option (List Char)
  class_no_book_no : Option (List Char)
  pages : Option (List Char)
deriving DecidableEq

/-- One entry of `volumeInfo.industryIdentifiers` in a Google Books
response. -/
structure IndustryIdentifier where
  idType : List Char
  identifier : List Char
deriving DecidableEq

/-- The `volumeInfo` object of a Google Books item, with the fields
`extract_book_info` reads. -/
structure VolumeInfo where
  title : Option (List Char)
  authors : Option (List (List Char))
  industryIdentifiers : List IndustryIdentifier
  publishedDate : Option (List Char)
  categories : Option (List (List Char))
  description : Option (List Char)
  publisher : Option (List Char)
deriving DecidableEq

/-- Outcome of one HTTP round trip in `query_google_books`: either some
exception was raised (connection error, timeout, non-2xx status via
`raise_for_status`, JSON decode failure, missing key, index error), or a
parsed body whose optional `items` array is given. -/
inductive HttpResult where
  | exn : HttpResult
  | ok : Option (List VolumeInfo) → HttpResult
deriving DecidableEq

/-- Embedding of `query_google_books`: every raised exception is caught by
the bare `except` and becomes `None`; a body without `"items"` becomes
`None`; an empty `items` array raises `IndexError` at `items[0]`, also
caught; otherwise the first item's `volumeInfo` is returned. -/
def query_google_books : HttpResult → Option VolumeInfo
  | .exn => none
  | .ok none => none
  | .ok (some []) => none
  | .ok (some (i :: _)) => some i

/-- Deterministic model of the external Google Books service: the response
each query would receive.  `isbnResp` keys on the sanitized ISBN query,
`titleResp` on the title and optional author. -/
structure Adapters where
  isbnResp : List Char → HttpResult
  titleResp : List Char → Option (List Char) → HttpResult

/-- Characters kept by `search_by_isbn`'s sanitizer
(`re.sub(r"[^0-9Xx]", "", str(isbn))`). -/
def isIsbnChar (c : Char) : Bool := ('0' ≤ c && c ≤ '9') || c = 'X' || c = 'x'

/-- Embedding of `search_by_isbn`. -/
def search_by_isbn (ad : Adapters) (isbn : List Char) : Option VolumeInfo :=
  query_google_books (ad.isbnResp (isbn.filter isIsbnChar))

/-- Embedding of `search_by_title_author` (the query-string assembly is
folded into the adapter function's arguments). -/
def search_by_title_author (ad : Adapters) (title : List Char) (author : Option (List Char)) : Option VolumeInfo :=
  query_google_books (ad.titleResp title author)

/-- Identifier-type tag for 13-digit ISBNs. -/
def ISBN13 : List Char := ['I','S','B','N','_','1','3']

/-- Identifier-type tag for 10-digit ISBNs. -/
def ISBN10 : List Char := ['I','S','B','N','_','1','0']

/-- The dictionary produced by `extract_book_info`. -/
structure BookInfo where
  title : Option (List Char)
  authors : Option (List (List Char))
  isbn : Option (List Char)
  year : Option (List Char)
  subjects : Option (List (List Char))
  summary : Option (List Char)
  publisher : Option (List Char)
deriving DecidableEq

/-- Embedding of `extract_book_info`. -/
def extract_book_info (info : VolumeInfo) : BookInfo :=
  { title := clean_text info.title
    authors := info.authors
    isbn := (info.industryIdentifiers.find?
      (fun i => i.idType = ISBN13 || i.idType = ISBN10)).map (fun i => i.identifier)
    year := info.publishedDate
    subjects := info.categories
    summary := clean_text info.description
    publisher := info.publisher }

/-- The `authors` cell of an `EnrichmentResult` is the input row's string
on the MISSING path and the provider's list on the FOUND path. -/
inductive StrOrList where
  | str : List Char → StrOrList
  | list : List (List Char) → StrOrList
deriving DecidableEq

/-- Match status of an enrichment result. -/
inductive Status where
  | FOUND : Status
  | MISSING : Status
deriving DecidableEq

/-- The dictionary appended to `saved` for each processed row. -/
structure EnrichmentResult where
  record_id : Nat
  book_key : List Char
  status : Status
  accession_no : Option (List Char)
  class_no_book_no : Option (List Char)
  pages : Option (List Char)
  title : Option (List Char)
  authors : Option StrOrList
  isbn : Option (List Char)
  year : Option (List Char)
  subjects : Option (List (List Char))
  summary : Option (List Char)
  publisher : Option (List Char)
deriving DecidableEq

/-- Embedding of `process_row`: try the ISBN search when the ISBN is
truthy, fall back to the title/author search, and build the MISSING or
FOUND record exactly as the source does. -/
def process_row (ad : Adapters) (row : Row) : EnrichmentResult :=
  let key := book_key row.isbn row.title
  let info1 : Option VolumeInfo :=
    match strTruthy row.isbn with
    | some i => search_by_isbn ad i
    | none => none
  let info : Option VolumeInfo :=
    match info1 with
    | some i => some i
    | none => search_by_title_author ad row.title row.authors
  match info with
  | none =>
      { record_id := row.record_id, book_key := key, status := .MISSING,
        accession_no := row.accession_no, class_no_book_no := row.class_no_book_no,
        pages := row.pages, title := some row.title,
        authors := row.authors.map StrOrList.str, isbn := row.isbn,
        year := none, subjects := none, summary := none, publisher := none }
  | some i =>
      let book := extract_book_info i
      { record_id := row.record_id, book_key := key, status := .FOUND,
        accession_no := row.accession_no, class_no_book_no := row.class_no_book_no,
        pages := row.pages, title := book.title,
        authors := book.authors.map StrOrList.list, isbn := book.isbn,
        year := book.year, subjects := book.subjects, summary := book.summary,
        publisher := book.publisher }

/-- The work set of a run: the input rows whose `book_key` is not among
the keys of the loaded checkpoint (`remaining_df` in
`run_transformation`). -/
def remaining_rows (saved0 : List EnrichmentResult) (rows : List Row) : List Row :=
  rows.filter (fun r => !(decide (book_key r.isbn r.title ∈ saved0.map (fun q => q.book_key))))

/-- Functional core of `run_transformation`: load the checkpoint, skip
already-seen rows, process the rest and append each result to `saved`.
Worker completion order is modelled as list order; the theorems below that
depend on order-insensitivity are stated about key sets. -/
def run_transformation_core (saved0 : List EnrichmentResult) (rows : List Row) (ad : Adapters) : List EnrichmentResult :=
  saved0 ++ (remaining_rows saved0 rows).map (process_row ad)

/-- Processing a row never changes its dedup key: the result's `book_key`
is the row's `book_key`. -/
theorem process_row_book_key (ad : Adapters) (row : Row) :
    (process_row ad row).book_key = book_key row.isbn row.title := by
  unfold process_row
  split <;> dsimp only <;> split <;> rfl

/-- The list of dedup keys of a result list, in order. -/
def result_keys (l : List EnrichmentResult) : List (List Char) :=
  l.map (fun r => r.book_key)

/-- Keys distribute over appending result lists. -/
theorem result_keys_append (a b : List EnrichmentResult) :
    result_keys (a ++ b) = result_keys a ++ result_keys b := by
  unfold result_keys
  exact List.map_append _ a b

/-- Membership in the key set of a completed run: a key is present exactly
when it was in the loaded checkpoint or is the key of some input row. -/
theorem result_keys_run_mem (saved0 : List EnrichmentResult) (rows : List Row) (ad : Adapters) (k : List Char) :
    k ∈ result_keys (run_transformation_core saved0 rows ad) ↔
      k ∈ result_keys saved0 ∨ ∃ r ∈ rows, book_key r.isbn r.title = k := by
  unfold run_transformation_core
  rw [result_keys_append, List.mem_append]
  constructor
  · rintro (h | h)
    · exact Or.inl h
    · rcases List.mem_map.mp h with ⟨res, hres, hkey⟩
      rcases List.mem_map.mp hres with ⟨r, hr, hpr⟩
      refine Or.inr ⟨r, (List.mem_filter.mp hr).1, ?_⟩
      rw [← hkey, ← hpr, process_row_book_key]
  · rintro (h | ⟨r, hr, hk⟩)
    · exact Or.inl h
    · by_cases hks : k ∈ result_keys saved0
      · exact Or.inl hks
      · refine Or.inr ?_
        refine List.mem_map.mpr ⟨process_row ad r, ?_, by rw [process_row_book_key]; exact hk⟩
        refine List.mem_map.mpr ⟨r, ?_, rfl⟩
        unfold remaining_rows
        refine List.mem_filter.mpr ⟨hr, ?_⟩
        have : (book_key r.isbn r.title ∈ saved0.map fun q => q.book_key) = False := by
          rw [hk]
          exact eq_false hks
        simp [this]

/-- One iteration of the collection loop in `run_transformation`, executed
under the lock: `saved.append(result); seen.add(result["book_key"])`. -/
def orch_step (st : List EnrichmentResult × List (List Char)) (res : EnrichmentResult) :
    List EnrichmentResult × List (List Char) :=
  (st.1 ++ [res], st.2.insert res.book_key)

/-- The successive `(saved, seen)` states of a run, starting just after the
checkpoint is loaded (`saved = load_existing(...)`,
`seen = {r["book_key"] for r in saved}`) and stepping once per collected
result. -/
def orch_states (saved0 : List EnrichmentResult) (rows : List Row) (ad : Adapters) :
    List (List EnrichmentResult × List (List Char)) :=
  List.scanl orch_step (saved0, result_keys saved0)
    ((remaining_rows saved0 rows).map (process_row ad))

/-- Auxiliary invariant: along any scan of `orch_step`, membership in the
`seen` component always coincides with membership in the keys of the
`saved` component, provided it does initially. -/
theorem orch_seen_inv_aux : ∀ (results : List EnrichmentResult) (st0 : List EnrichmentResult × List (List Char)),
    (∀ k, k ∈ st0.2 ↔ k ∈ result_keys st0.1) →
    ∀ st ∈ List.scanl orch_step st0 results, ∀ k, k ∈ st.2 ↔ k ∈ result_keys st.1 := by
  intro results
  induction results with
  | nil =>
    intro st0 h0 st hst k
    rw [List.scanl] at hst
    rcases List.mem_singleton.mp hst with h
    rw [h]
    exact h0 k
  | cons r t ih =>
    intro st0 h0 st hst k
    rw [List.scanl_cons] at hst
    rcases List.mem_cons.mp hst with h | h
    · rw [h]; exact h0 k
    · refine ih (orch_step st0 r) ?_ st h k
      intro k2
      unfold orch_step
      rw [List.mem_insert_iff, result_keys_append]
      simp only [List.mem_append]
      rw [h0 k2]
      unfold result_keys
      simp [or_comm]

/-- Auxiliary invariant: along any scan of `orch_step`, the keys of the
`saved` component stay duplicate-free provided they start duplicate-free,
the pending results have duplicate-free keys, and no pending key is already
saved. -/
theorem orch_nodup_aux : ∀ (results : List EnrichmentResult) (st0 : List EnrichmentResult × List (List Char)),
    (result_keys st0.1).Nodup →
    (results.map (fun r => r.book_key)).Nodup →
    (∀ k ∈ results.map (fun r => r.book_key), k ∉ result_keys st0.1) →
    ∀ st ∈ List.scanl orch_step st0 results, (result_keys st.1).Nodup := by
  intro results
  induction results with
  | nil =>
    intro st0 h0 _ _ st hst
    rw [List.scanl] at hst
    rcases List.mem_singleton.mp hst with h
    rw [h]
    exact h0
  | cons r t ih =>
    intro st0 h0 hnd hdisj st hst
    rw [List.scanl_cons] at hst
    rcases List.mem_cons.mp hst with h | h
    · rw [h]; exact h0
    · refine ih (orch_step st0 r) ?_ ?_ ?_ st h
      · unfold orch_step
        rw [result_keys_append, List.nodup_append]
        refine ⟨h0, by simp [result_keys], ?_⟩
        intro k hk hk2
        have : k = r.book_key := by
          unfold result_keys at hk2
          simpa using hk2
        exact hdisj k (by simp [this]) hk
      · exact (List.nodup_cons.mp (by simpa using hnd)).2
      · intro k hk
        unfold orch_step
        rw [result_keys_append]
        intro hmem
        rcases List.mem_append.mp hmem with h1 | h1
        · exact hdisj k (List.mem_cons_of_mem _ hk) h1
        · have hkr : k = r.book_key := by
            unfold result_keys at h1
            simpa using h1
          have : r.book_key ∉ t.map (fun q => q.book_key) :=
            (List.nodup_cons.mp (by simpa using hnd)).1
          exact this (hkr ▸ hk)

/-! Disk model for the atomic checkpoint persist (C8). -/

/-- Contents of one file slot on disk: missing, partially written, or a
complete serialized snapshot. -/
inductive FileData where
  | absent : FileData
  | partialWrite : FileData
  | complete : List EnrichmentResult → FileData
deriving DecidableEq

/-- The two paths `save_atomic` touches: the checkpoint file
(`output_json`) and the temporary file (`output_json.with_suffix(".tmp")`). -/
structure Disk where
  main : FileData
  tmp : FileData
deriving DecidableEq

/-- Embedding of `save_atomic` as its sequence of observable disk states:
`json.dump` writes the temporary file (observable mid-write as a partial
file), and `os.replace` then atomically installs it over the checkpoint.
The checkpoint slot changes only in the final, atomic step. -/
def save_atomic_states (d : Disk) (data : List EnrichmentResult) : List Disk :=
  [⟨d.main, FileData.partialWrite⟩,
   ⟨d.main, FileData.complete data⟩,
   ⟨FileData.complete data, FileData.absent⟩]

/-- Flush interval of the collection loop (`SAVE_EVERY = 10`). -/
def SAVE_EVERY : Nat := 10

/-- Disk state after the draining loop has collected the given results:
`save_atomic(saved, output_json)` runs whenever the accumulated length hits
a multiple of `SAVE_EVERY`. -/
def drain_final (d : Disk) (saved : List EnrichmentResult) : List EnrichmentResult → Disk
  | [] => d
  | r :: rest =>
    if (saved ++ [r]).length % SAVE_EVERY = 0 then
      drain_final ⟨FileData.complete (saved ++ [r]), FileData.absent⟩ (saved ++ [r]) rest
    else drain_final d (saved ++ [r]) rest

/-- All observable disk states produced while the draining loop collects
the given results (one `save_atomic_states` block per flush). -/
def drain_trace (d : Disk) (saved : List EnrichmentResult) : List EnrichmentResult → List Disk
  | [] => []
  | r :: rest =>
    if (saved ++ [r]).length % SAVE_EVERY = 0 then
      save_atomic_states d (saved ++ [r]) ++
        drain_trace ⟨FileData.complete (saved ++ [r]), FileData.absent⟩ (saved ++ [r]) rest
    else drain_trace d (saved ++ [r]) rest

/-- Disk trace of a `run_transformation` invocation that collects `killAt`
results from its work set and then executes the final `save_atomic` — the
final persist runs on both the normal exit path and the
`except KeyboardInterrupt` path, so an interrupt mid-drain is exactly a
small `killAt`. -/
def run_transformation_disk_trace (d0 : Disk) (saved0 : List EnrichmentResult) (rows : List Row)
    (ad : Adapters) (killAt : Nat) : List Disk :=
  let results := ((remaining_rows saved0 rows).map (process_row ad)).take killAt
  (d0 :: drain_trace d0 saved0 results) ++
    save_atomic_states (drain_final d0 saved0 results) (saved0 ++ results)

/-- The checkpoint slot after draining is either untouched or holds a
complete snapshot of the checkpoint plus a prefix of the collected
results. -/
theorem drain_final_main : ∀ (results : List EnrichmentResult) (d : Disk) (saved : List EnrichmentResult),
    (drain_final d saved results).main = d.main ∨
      ∃ m, (drain_final d saved results).main = FileData.complete (saved ++ results.take m) := by
  intro results
  induction results with
  | nil => intro d saved; exact Or.inl rfl
  | cons r rest ih =>
    intro d saved
    unfold drain_final
    by_cases hflush : (saved ++ [r]).length % SAVE_EVERY = 0
    · rw [if_pos hflush]
      rcases ih ⟨FileData.complete (saved ++ [r]), FileData.absent⟩ (saved ++ [r]) with h | ⟨m, hm⟩
      · refine Or.inr ⟨1, ?_⟩
        rw [h]
        rfl
      · refine Or.inr ⟨m + 1, ?_⟩
        rw [hm, List.append_assoc]
        rfl
    · rw [if_neg hflush]
      rcases ih d (saved ++ [r]) with h | ⟨m, hm⟩
      · exact Or.inl h
      · refine Or.inr ⟨m + 1, ?_⟩
        rw [hm, List.append_assoc]
        rfl

/-- Every disk state observable during draining has a checkpoint slot that
is either the initial one or a complete snapshot of the checkpoint plus a
prefix of the collected results — never a partial write. -/
theorem drain_trace_main : ∀ (results : List EnrichmentResult) (d : Disk) (saved : List EnrichmentResult),
    ∀ x ∈ drain_trace d saved results,
      x.main = d.main ∨ ∃ m, x.main = FileData.complete (saved ++ results.take m) := by
  intro results
  induction results with
  | nil => intro d saved x hx; simp [drain_trace] at hx
  | cons r rest ih =>
    intro d saved x hx
    unfold drain_trace at hx
    by_cases hflush : (saved ++ [r]).length % SAVE_EVERY = 0
    · rw [if_pos hflush] at hx
      rcases List.mem_append.mp hx with h | h
      · simp only [save_atomic_states, List.mem_cons, List.not_mem_nil, or_false] at h
        rcases h with h1 | h1 | h1
        · rw [h1]
          exact Or.inl rfl
        · rw [h1]
          exact Or.inl rfl
        · rw [h1]
          exact Or.inr ⟨1, rfl⟩
      · rcases ih ⟨FileData.complete (saved ++ [r]), FileData.absent⟩ (saved ++ [r]) x h with h2 | ⟨m, hm⟩
        · exact Or.inr ⟨1, h2⟩
        · refine Or.inr ⟨m + 1, ?_⟩
          rw [hm, List.append_assoc]
          rfl
    · rw [if_neg hflush] at hx
      rcases ih d (saved ++ [r]) x hx with h2 | ⟨m, hm⟩
      · exact Or.inl h2
      · refine Or.inr ⟨m + 1, ?_⟩
        rw [hm, List.append_assoc]
        rfl

/-! Fatal-versus-absorbed error model for the orchestrator entry (C9). -/

/-- The on-disk situation of the output JSON at load time. -/
inductive CheckpointFile where
  | absent : CheckpointFile
  | corrupt : CheckpointFile
  | valid : List EnrichmentResult → CheckpointFile
deriving DecidableEq

/-- Embedding of `load_existing`: a missing file yields the empty list; a
present file is parsed by `json.load`, whose `JSONDecodeError` is not
caught anywhere and so escalates; a well-formed file yields its contents. -/
def load_existing : CheckpointFile → Except (List Char) (List EnrichmentResult)
  | .absent => Except.ok []
  | .corrupt => Except.error ['J','S','O','N','D','e','c','o','d','e','E','r','r','o','r']
  | .valid l => Except.ok l

/-- Diagnostic raised by `run_transformation` when the input CSV is
missing. -/
def FileNotFoundMsg : List Char :=
  ['F','i','l','e','N','o','t','F','o','u','n','d','E','r','r','o','r']

/-- Embedding of the `run_transformation` entry including its fatal paths:
`raise FileNotFoundError` when the input CSV does not exist, escalation of
a corrupt checkpoint from `load_existing`, and otherwise the pure
enrichment core. -/
def run_transformation_checked (inputExists : Bool) (ckpt : CheckpointFile) (rows : List Row)
    (ad : Adapters) : Except (List Char) (List EnrichmentResult) :=
  if inputExists then
    match load_existing ckpt with
    | Except.error e => Except.error e
    | Except.ok saved0 => Except.ok (run_transformation_core saved0 rows ad)
  else Except.error FileNotFoundMsg

/-! Hybrid scoring models (C1, C4, C5, C10). -/

/-- Decimal digit test (regex `\d`, ASCII). -/
def isDigitChar (c : Char) : Bool := '0' ≤ c && c ≤ '9'

/-- Numeric value of a digit run. -/
def digitsToNat (l : List Char) : Nat :=
  l.foldl (fun a c => a * 10 + (c.toNat - 48)) 0

/-- The first maximal digit run of a string, as a number (the regex search
`re.search(r"\d+", pages)` and `pd.Series(pages).str.extract(r"(\d+)")`
both return this run). -/
def firstNumber : List Char → Option Nat
  | [] => none
  | c :: rest =>
    if isDigitChar c then some (digitsToNat (c :: rest.takeWhile isDigitChar))
    else firstNumber rest

/-- Model of pandas `DataFrame.sort_values(by, ascending=False)` on one
numeric key, as the reverse of a stable ascending sort.  This reproduces
the descending ordering of the key values exactly; the relative order of
EQUAL-key rows is NOT modelled faithfully (pandas pre-reverses the values
before an argsort whose default `quicksort` kind leaves tie order
unspecified at the pool sizes used here), and no theorem below depends on
the model's tie order — only on sortedness, membership/permutation and
length. -/
def sortValuesDesc {α : Type} (key : α → ℚ) (l : List α) : List α :=
  (List.insertionSort (fun a b => key a ≤ key b) l).reverse

/-- Descending sortedness of the model of `sort_values(ascending=False)`. -/
theorem sortValuesDesc_sorted {α : Type} (key : α → ℚ) (l : List α) :
    List.Sorted (fun a b => key b ≤ key a) (sortValuesDesc key l) := by
  haveI hTot : IsTotal α (fun a b => key a ≤ key b) := ⟨fun a b => le_total (key a) (key b)⟩
  haveI hTrans : IsTrans α (fun a b => key a ≤ key b) := ⟨fun _ _ _ h1 h2 => le_trans h1 h2⟩
  have hs := List.sorted_insertionSort (fun a b => key a ≤ key b) l
  unfold sortValuesDesc
  rw [List.Sorted, List.pairwise_reverse]
  exact hs

/-- The model of `sort_values` is a permutation of its input. -/
theorem sortValuesDesc_perm {α : Type} (key : α → ℚ) (l : List α) :
    (sortValuesDesc key l).Perm l :=
  (List.reverse_perm _).trans (List.perm_insertionSort _ l)

namespace Advanced

/-- Embedding of `extract_page_count` from
src/recommender/advanced_transformer_recommender.py: a non-string cell
(`none`) gives `0.0`; otherwise the first digit run of the text, or `0.0`
when there is none. -/
def extract_page_count (pages : Option (List Char)) : ℚ :=
  match pages with
  | none => 0
  | some s =>
    match firstNumber s with
    | none => 0
    | some n => (n : ℚ)

/-- A row of the `candidates` dataframe after stage 2 of
`AdvancedTransformerRecommender.recommend`: `rid` is the candidate's
position in the metadata table, `cross_score` the cross-encoder output for
the (query, candidate) pair, `pages` the metadata cell the depth heuristic
reads. -/
structure Candidate where
  rid : Nat
  cross_score : ℚ
  pages : Option (List Char)
deriving DecidableEq

/-- The `depth_score` column: `extract_page_count(pages) / 1000.0`. -/
def depth_score (c : Candidate) : ℚ := extract_page_count c.pages / 1000

/-- The `final_score` column:
`0.8 * cross_score + 0.2 * depth_score`. -/
def final_score (c : Candidate) : ℚ := 0.8 * c.cross_score + 0.2 * depth_score c

/-- Retrieval pool size (`CANDIDATE_POOL = 30`). -/
def CANDIDATE_POOL : Nat := 30

/-- Stages 3 and 4 of `recommend`: rank the candidate pool by
`final_score` descending (`sort_values("final_score", ascending=False)`)
and keep the first `top_k` rows (`ranked.head(top_k)`). -/
def recommend (pool : List Candidate) (top_k : Nat) : List Candidate :=
  (sortValuesDesc final_score pool).take top_k

/-- The whole `recommend` pipeline with its external collaborators held
abstract: `faiss_search k` is the index search, called with exactly
`CANDIDATE_POOL`; `row_at` combines `books_df.iloc` with the
cross-encoder's score for the fixed query. -/
def recommend_pipeline (faiss_search : Nat → List Nat) (row_at : Nat → Candidate)
    (top_k : Nat) : List Candidate :=
  recommend ((faiss_search CANDIDATE_POOL).map row_at) top_k

end Advanced

namespace TransRec

/-- Embedding of `extract_page_count` from
src/recommender/transformer_recommender.py: `None` for non-string cells
and for strings without a digit, else the first digit run. -/
def extract_page_count (pages : Option (List Char)) : Option ℚ :=
  pages.bind (fun s => (firstNumber s).map (fun n => (n : ℚ)))

/-- A row of the candidate dataframe passed to `hybrid_rerank`, carrying
the `semantic_score` column added by `recommend_books`. -/
structure Candidate where
  rid : Nat
  semantic_score : ℚ
  pages : Option (List Char)
  summary : Option (List Char)
deriving DecidableEq

/-- The `depth_score` column: `page_count.fillna(0) / 1000.0`. -/
def depth_score (c : Candidate) : ℚ := (extract_page_count c.pages).getD 0 / 1000

/-- The `summary_bonus` column: `summary.notna()` as 0/1 when the dataframe
has a `summary` column, else the constant 0. -/
def summary_bonus (hasSummaryCol : Bool) (c : Candidate) : ℚ :=
  if hasSummaryCol then (if c.summary.isSome then 1 else 0) else 0

/-- The `final_score` column of `hybrid_rerank`:
`0.70 * semantic_score + 0.20 * depth_score + 0.10 * summary_bonus`. -/
def final_score (hasSummaryCol : Bool) (c : Candidate) : ℚ :=
  0.70 * c.semantic_score + 0.20 * depth_score c + 0.10 * summary_bonus hasSummaryCol c

/-- Embedding of `hybrid_rerank`: compute the hybrid score columns and sort
by `final_score` descending. -/
def hybrid_rerank (hasSummaryCol : Bool) (l : List Candidate) : List Candidate :=
  sortValuesDesc (final_score hasSummaryCol) l

end TransRec

/-- Length preservation of the descending sort model. -/
theorem sortValuesDesc_length {α : Type} (key : α → ℚ) (l : List α) :
    (sortValuesDesc key l).length = l.length := by
  unfold sortValuesDesc
  rw [List.length_reverse, List.length_insertionSort]

/-- Candidate A of the spec's scoring scenario: rerank score 0.9, pages
"320", summary present (the advanced scorer reads no summary field). -/
def candidateA : Advanced.Candidate := ⟨0, 9/10, some ['3','2','0']⟩

/-- Candidate B of the spec's scoring scenario: rerank score 0.85, pages
"50". -/
def candidateB : Advanced.Candidate := ⟨1, 85/100, some ['5','0']⟩

/-- Evaluation of the hybrid score on scenario candidate A. -/
theorem final_score_candidateA : Advanced.final_score candidateA = 784/1000 := by
  have h : Advanced.extract_page_count candidateA.pages = ((320 : Nat) : ℚ) := rfl
  unfold Advanced.final_score Advanced.depth_score
  rw [h]
  norm_num [candidateA]

/-- Evaluation of the hybrid score on scenario candidate B. -/
theorem final_score_candidateB : Advanced.final_score candidateB = 69/100 := by
  have h : Advanced.extract_page_count candidateB.pages = ((50 : Nat) : ℚ) := rfl
  unfold Advanced.final_score Advanced.depth_score
  rw [h]
  norm_num [candidateB]

/-- C1 counterexample: on the spec's own scenario pool, the advanced
recommender's final scores are 0.784 and 0.69 — not the 0.765 and 0.6525
the claimed 0.65/0.25/0.10 blend would produce. -/
theorem thm_C1_counterexample :
    Advanced.final_score candidateA = 784/1000 ∧ (784/1000 : ℚ) ≠ 765/1000 ∧
    Advanced.final_score candidateB = 69/100 ∧ (69/100 : ℚ) ≠ 6525/10000 := by
  refine ⟨final_score_candidateA, by norm_num, final_score_candidateB, by norm_num⟩

/-- C1 (amended): with the reranker available, the advanced scorer computes
`final_score = 0.8·rerank_score + 0.2·depth_score` with no summary term,
where `depth_score` is the first integer of the pages text divided by 1000
(0 when absent); on the scenario pool the scores are 0.784 and 0.69 and
the output order is [A, B]. -/
theorem thm_C1_hybrid_weights :
    (∀ c : Advanced.Candidate,
        Advanced.final_score c = 0.8 * c.cross_score + 0.2 * (Advanced.extract_page_count c.pages / 1000)) ∧
    Advanced.final_score candidateA = 784/1000 ∧
    Advanced.final_score candidateB = 69/100 ∧
    Advanced.recommend [candidateA, candidateB] 2 = [candidateA, candidateB] := by
  refine ⟨fun c => rfl, final_score_candidateA, final_score_candidateB, ?_⟩
  unfold Advanced.recommend sortValuesDesc
  show (List.orderedInsert _ candidateA (List.orderedInsert _ candidateB [])).reverse.take 2 = _
  rw [List.orderedInsert_nil]
  show (List.orderedInsert _ candidateA [candidateB]).reverse.take 2 = _
  rw [List.orderedInsert]
  rw [if_neg (by rw [final_score_candidateA, final_score_candidateB]; norm_num)]
  rw [List.orderedInsert_nil]
  rfl

/-- C10: the retrieval stage always asks the index for exactly
`CANDIDATE_POOL = 30` candidates, so `recommend` returns at most
`min(top_k, 30)` rows whenever the index honours its contract of returning
at most the requested number of hits. -/
theorem thm_C10_pool_cap (faiss_search : Nat → List Nat) (row_at : Nat → Advanced.Candidate)
    (top_k : Nat) (h : (faiss_search Advanced.CANDIDATE_POOL).length ≤ Advanced.CANDIDATE_POOL) :
    (Advanced.recommend_pipeline faiss_search row_at top_k).length ≤ min top_k 30 := by
  unfold Advanced.recommend_pipeline Advanced.recommend
  rw [List.length_take, sortValuesDesc_length, List.length_map]
  have h30 : Advanced.CANDIDATE_POOL = 30 := rfl
  have h2 := h.trans_eq h30
  omega

/-- The index search of the demonstration: returns the first `k` row ids. -/
def demoSearch : Nat → List Nat := fun k => List.range k

/-- The metadata/cross-encoder lookup of the demonstration. -/
def demoRowAt : Nat → Advanced.Candidate := fun i => ⟨i, 0, none⟩

/-- C10 witness: the pool-cap theorem applied at a concrete index and
query. -/
theorem thm_C10_witness :
    (demoSearch Advanced.CANDIDATE_POOL).length ≤ Advanced.CANDIDATE_POOL ∧
    (Advanced.recommend_pipeline demoSearch demoRowAt 5).length ≤ min 5 30 :=
  ⟨by decide, thm_C10_pool_cap demoSearch demoRowAt 5 (by decide)⟩

/-- Candidate with the highest semantic similarity in the low-resource
demonstration pool: no pages text, no summary. -/
def lowCandidateA : TransRec.Candidate := ⟨0, 9/10, none, none⟩

/-- Candidate with lower semantic similarity but deep page count and a
summary. -/
def lowCandidateB : TransRec.Candidate := ⟨1, 85/100, some ['9','0','0'], some ['x']⟩

/-- Evaluation of the low-resource hybrid score on the first candidate. -/
theorem final_score_lowA : TransRec.final_score true lowCandidateA = 63/100 := by
  unfold TransRec.final_score TransRec.depth_score TransRec.summary_bonus
  norm_num [lowCandidateA, TransRec.extract_page_count]

/-- Evaluation of the low-resource hybrid score on the second candidate. -/
theorem final_score_lowB : TransRec.final_score true lowCandidateB = 875/1000 := by
  have h : TransRec.extract_page_count lowCandidateB.pages = some ((900 : Nat) : ℚ) := rfl
  unfold TransRec.final_score TransRec.depth_score TransRec.summary_bonus
  rw [h]
  norm_num [lowCandidateB]

/-- The low-resource reranker reorders the demonstration pool: metadata
overtakes pure similarity. -/
theorem hybrid_rerank_low_eval :
    TransRec.hybrid_rerank true [lowCandidateA, lowCandidateB] = [lowCandidateB, lowCandidateA] := by
  unfold TransRec.hybrid_rerank sortValuesDesc
  show (List.orderedInsert _ lowCandidateA (List.orderedInsert _ lowCandidateB [])).reverse = _
  rw [List.orderedInsert_nil]
  show (List.orderedInsert _ lowCandidateA [lowCandidateB]).reverse = _
  rw [List.orderedInsert]
  rw [if_pos (by rw [final_score_lowA, final_score_lowB]; norm_num)]
  rfl

/-- C4 counterexample: in the module without a cross-encoder, the final
score is NOT the retrieval score alone — for a candidate with no pages and
no summary it is 0.7·semantic ≠ semantic, and the metadata terms reorder
the pool relative to retrieval order. -/
theorem thm_C4_counterexample :
    TransRec.final_score true lowCandidateA ≠ lowCandidateA.semantic_score ∧
    lowCandidateB.semantic_score < lowCandidateA.semantic_score ∧
    TransRec.hybrid_rerank true [lowCandidateA, lowCandidateB] = [lowCandidateB, lowCandidateA] := by
  refine ⟨?_, ?_, hybrid_rerank_low_eval⟩
  · rw [final_score_lowA]
    norm_num [lowCandidateA]
  · norm_num [lowCandidateA, lowCandidateB]

/-- C4 (amended): in the no-cross-encoder (low-resource) module the final
score is the metadata blend `0.70·semantic + 0.20·depth + 0.10·summary`,
the output is sorted by that blend descending as a permutation of the
pool, and the depth/summary terms can change the ranking relative to pure
retrieval order. -/
theorem thm_C4_blend :
    (∀ (hasCol : Bool) (c : TransRec.Candidate),
        TransRec.final_score hasCol c =
          0.70 * c.semantic_score + 0.20 * ((TransRec.extract_page_count c.pages).getD 0 / 1000) +
            0.10 * TransRec.summary_bonus hasCol c) ∧
    (∀ (hasCol : Bool) (l : List TransRec.Candidate),
        List.Sorted (fun a b => TransRec.final_score hasCol b ≤ TransRec.final_score hasCol a)
            (TransRec.hybrid_rerank hasCol l) ∧
        (TransRec.hybrid_rerank hasCol l).Perm l) ∧
    TransRec.hybrid_rerank true [lowCandidateA, lowCandidateB] = [lowCandidateB, lowCandidateA] :=
  ⟨fun _ _ => rfl,
   fun _ l => ⟨sortValuesDesc_sorted _ l, sortValuesDesc_perm _ l⟩,
   hybrid_rerank_low_eval⟩

/-- Membership in a result key list. -/
theorem mem_result_keys {k : List Char} {l : List EnrichmentResult} :
    k ∈ result_keys l ↔ ∃ r ∈ l, r.book_key = k := by
  unfold result_keys
  exact List.mem_map

/-- Adapter responses of the demonstrations: every request raises. -/
def demoAdapters : Adapters := ⟨fun _ => HttpResult.exn, fun _ _ => HttpResult.exn⟩

/-- First demonstration row. -/
def demoRow1 : Row := ⟨1, ['a'], some ['1'], none, none, none, none⟩

/-- Second demonstration row, with a different key. -/
def demoRow2 : Row := ⟨2, ['b'], some ['2'], none, none, none, none⟩

/-- C2: for any deterministic adapter assignment, resuming from a
checkpoint extended by the results of any subset of processed rows and
running to completion reaches exactly the key set of an uninterrupted run,
and the resume pass re-fetches no row whose key the loaded checkpoint
already contains. -/
theorem thm_C2_resume_equiv (saved0 : List EnrichmentResult) (rows : List Row) (ad : Adapters)
    (S : List Row) (hS : ∀ r ∈ S, r ∈ rows) :
    (∀ k, k ∈ result_keys (run_transformation_core (saved0 ++ S.map (process_row ad)) rows ad) ↔
          k ∈ result_keys (run_transformation_core saved0 rows ad)) ∧
    (∀ r ∈ remaining_rows (saved0 ++ S.map (process_row ad)) rows,
        book_key r.isbn r.title ∉ result_keys (saved0 ++ S.map (process_row ad))) := by
  constructor
  · intro k
    rw [result_keys_run_mem, result_keys_run_mem]
    constructor
    · rintro (h | h)
      · rw [result_keys_append, List.mem_append] at h
        rcases h with h1 | h1
        · exact Or.inl h1
        · rcases mem_result_keys.mp h1 with ⟨res, hres, hkey⟩
          rcases List.mem_map.mp hres with ⟨r, hr, hpr⟩
          refine Or.inr ⟨r, hS r hr, ?_⟩
          rw [← hkey, ← hpr, process_row_book_key]
      · exact Or.inr h
    · rintro (h | h)
      · refine Or.inl ?_
        rw [result_keys_append, List.mem_append]
        exact Or.inl h
      · exact Or.inr h
  · intro r hr
    unfold remaining_rows at hr
    have h2 := (List.mem_filter.mp hr).2
    simp only [Bool.not_eq_true', decide_eq_false_iff_not] at h2
    intro hmem
    refine h2 ?_
    unfold result_keys at hmem
    exact hmem

/-- C2 witness: the resume law applied to a kill after the first row of a
two-row input, with the always-failing adapter. -/
theorem thm_C2_witness :
    (∀ r ∈ [demoRow1], r ∈ [demoRow1, demoRow2]) ∧
    ((∀ k, k ∈ result_keys (run_transformation_core ([] ++ [demoRow1].map (process_row demoAdapters)) [demoRow1, demoRow2] demoAdapters) ↔
           k ∈ result_keys (run_transformation_core [] [demoRow1, demoRow2] demoAdapters)) ∧
     (∀ r ∈ remaining_rows ([] ++ [demoRow1].map (process_row demoAdapters)) [demoRow1, demoRow2],
         book_key r.isbn r.title ∉ result_keys ([] ++ [demoRow1].map (process_row demoAdapters)))) :=
  ⟨by decide, thm_C2_resume_equiv [] [demoRow1, demoRow2] demoAdapters [demoRow1] (by decide)⟩

/-- First of two distinct rows sharing a dedup key. -/
def dupRow1 : Row := ⟨1, ['M','L'], some ['9'], none, none, none, none⟩

/-- Second row with the same key (title differs only by case) but a
different record id. -/
def dupRow2 : Row := ⟨2, ['m','l'], some ['9'], none, none, none, none⟩

/-- C3 counterexample: when two distinct input rows map to the same
`book_key`, the collection loop appends both results — the loop has no
per-result seen check — so the key occurs twice in the accumulated
results. -/
theorem thm_C3_counterexample :
    dupRow1 ≠ dupRow2 ∧
    book_key dupRow1.isbn dupRow1.title = book_key dupRow2.isbn dupRow2.title ∧
    ¬ (result_keys (run_transformation_core [] [dupRow1, dupRow2] demoAdapters)).Nodup := by
  decide

/-- C3 (amended): at every point of every run — duplicate keys in the
input or not — `seen` holds exactly the `book_key` values of the
accumulated results; and when, additionally, the loaded checkpoint's keys
and the input rows' keys are each duplicate-free, the accumulated results
never repeat a key.  (Two distinct same-key rows in one input defeat the
second part; see the counterexample.) -/
theorem thm_C3_invariant (saved0 : List EnrichmentResult) (rows : List Row) (ad : Adapters) :
    (∀ st ∈ orch_states saved0 rows ad, ∀ k, k ∈ st.2 ↔ k ∈ result_keys st.1) ∧
    ((result_keys saved0).Nodup →
      (rows.map (fun r => book_key r.isbn r.title)).Nodup →
      ∀ st ∈ orch_states saved0 rows ad, (result_keys st.1).Nodup) := by
  have hmap : ((remaining_rows saved0 rows).map (process_row ad)).map (fun r => r.book_key) =
      (remaining_rows saved0 rows).map (fun r => book_key r.isbn r.title) := by
    rw [List.map_map]
    exact List.map_congr_left (fun r _ => process_row_book_key ad r)
  constructor
  · intro st hst
    exact orch_seen_inv_aux _ (saved0, result_keys saved0) (fun k => Iff.rfl) st hst
  · intro h1 h2 st hst
    refine orch_nodup_aux _ (saved0, result_keys saved0) h1 ?_ ?_ st hst
    · rw [hmap]
      refine h2.sublist ?_
      exact (List.filter_sublist rows).map _
    · intro k hk
      rw [hmap] at hk
      rcases List.mem_map.mp hk with ⟨r, hr, hkey⟩
      unfold remaining_rows at hr
      have h3 := (List.mem_filter.mp hr).2
      simp only [Bool.not_eq_true', decide_eq_false_iff_not] at h3
      rw [← hkey]
      intro hmem
      refine h3 ?_
      unfold result_keys at hmem
      exact hmem

/-- C3 witness: the unconditional seen-equals-keys invariant exercised on
the duplicate-key input, and the no-duplicates conclusion on a concrete
duplicate-free input. -/
theorem thm_C3_witness :
    (∀ st ∈ orch_states [] [dupRow1, dupRow2] demoAdapters,
      ∀ k, k ∈ st.2 ↔ k ∈ result_keys st.1) ∧
    (result_keys ([] : List EnrichmentResult)).Nodup ∧
    (([demoRow1, demoRow2].map (fun r => book_key r.isbn r.title)).Nodup) ∧
    (∀ st ∈ orch_states [] [demoRow1, demoRow2] demoAdapters, (result_keys st.1).Nodup) :=
  ⟨(thm_C3_invariant [] [dupRow1, dupRow2] demoAdapters).1,
   by decide, by decide,
   (thm_C3_invariant [] [demoRow1, demoRow2] demoAdapters).2 (by decide) (by decide)⟩

/-- First scenario row: title "Intro to ML", author "J Doe", isbn
1234567890. -/
def scenarioRow1 : Row :=
  ⟨1, ['I','n','t','r','o',' ','t','o',' ','M','L'],
   some ['1','2','3','4','5','6','7','8','9','0'],
   some ['J',' ','D','o','e'], none, none, none⟩

/-- Second scenario row: title "Intro To  ML" (double space), author
"J. Doe", same isbn. -/
def scenarioRow2 : Row :=
  ⟨2, ['I','n','t','r','o',' ','T','o',' ',' ','M','L'],
   some ['1','2','3','4','5','6','7','8','9','0'],
   some ['J','.',' ','D','o','e'], none, none, none⟩

/-- C6 counterexample: the code's `book_key` lowercases the raw title
without whitespace normalization, so it disagrees with the spec's
`(isbn or "NOISBN") + "|" + normalize_title(title)` formula; the two
scenario rows therefore get DIFFERENT keys and the run produces two
EnrichmentResults, not one. -/
theorem thm_C6_counterexample :
    book_key scenarioRow2.isbn scenarioRow2.title ≠ spec_book_key scenarioRow2.isbn scenarioRow2.title ∧
    book_key scenarioRow1.isbn scenarioRow1.title ≠ book_key scenarioRow2.isbn scenarioRow2.title ∧
    (run_transformation_core [] [scenarioRow1, scenarioRow2] demoAdapters).length = 2 := by
  decide

/-- C6 (amended): `book_key(isbn, title)` is `(isbn or "NOISBN") + "|" +
title.lower()` — two same-ISBN rows collapse exactly when their lowercased
raw titles agree — so the scenario rows keep distinct keys and the run
yields one EnrichmentResult per row. -/
theorem thm_C6_book_key :
    (∀ (isbn : Option (List Char)) (t1 t2 : List Char),
        book_key isbn t1 = book_key isbn t2 ↔ lowerStr t1 = lowerStr t2) ∧
    book_key scenarioRow1.isbn scenarioRow1.title ≠ book_key scenarioRow2.isbn scenarioRow2.title ∧
    result_keys (run_transformation_core [] [scenarioRow1, scenarioRow2] demoAdapters) =
      [book_key scenarioRow1.isbn scenarioRow1.title, book_key scenarioRow2.isbn scenarioRow2.title] := by
  refine ⟨?_, by decide, by decide⟩
  intro isbn t1 t2
  unfold book_key
  constructor
  · intro h
    have h2 := List.append_cancel_left h
    injection h2 with _ h3
  · intro h
    rw [h]

/-- C7 counterexample: `normalize_text` keeps characters outside
`[a-z0-9 space]` — the dot of "J. Doe" survives — contradicting the
claimed character drop (the spec-worded variant disagrees with the code
here). -/
theorem thm_C7_counterexample :
    normalize_text (some ['J','.',' ','D','o','e']) = some ['j','.',' ','d','o','e'] ∧
    '.' ∈ ['j','.',' ','d','o','e'] ∧ isAllowed '.' = false ∧
    specNormalizeTitle ['J','.',' ','D','o','e'] ≠ ['j','.',' ','d','o','e'] := by
  decide

/-- C7 (amended): `normalize_text` lowercases, strips, and collapses
internal whitespace runs to single spaces — without dropping any
non-whitespace character — and is idempotent on every input. -/
theorem thm_C7_normalize_idem (o : Option (List Char)) :
    normalize_text (normalize_text o) = normalize_text o :=
  normalize_text_idem o

/-- C8: at every observable instant of a run killed after any number of
collected results, the checkpoint file holds either its initial contents or
a complete snapshot (checkpoint plus a prefix of the collected results) —
never a partial write — and the trace ends with the final atomic persist of
everything collected, which runs on the interrupt path as well as on normal
completion. -/
theorem thm_C8_atomic_persist (d0 : Disk) (saved0 : List EnrichmentResult) (rows : List Row)
    (ad : Adapters) (killAt : Nat) :
    (∀ x ∈ run_transformation_disk_trace d0 saved0 rows ad killAt,
        x.main = d0.main ∨
          ∃ m, x.main = FileData.complete
            (saved0 ++ (((remaining_rows saved0 rows).map (process_row ad)).take killAt).take m)) ∧
    (run_transformation_disk_trace d0 saved0 rows ad killAt).getLast? =
      some ⟨FileData.complete (saved0 ++ ((remaining_rows saved0 rows).map (process_row ad)).take killAt),
            FileData.absent⟩ := by
  unfold run_transformation_disk_trace
  constructor
  · intro x hx
    rcases List.mem_append.mp hx with h | h
    · rcases List.mem_cons.mp h with h1 | h1
      · rw [h1]
        exact Or.inl rfl
      · exact drain_trace_main _ d0 saved0 x h1
    · simp only [save_atomic_states, List.mem_cons, List.not_mem_nil, or_false] at h
      have hdf := drain_final_main (((remaining_rows saved0 rows).map (process_row ad)).take killAt) d0 saved0
      rcases h with h1 | h1 | h1
      · rw [h1]
        exact hdf
      · rw [h1]
        exact hdf
      · rw [h1]
        refine Or.inr ⟨(((remaining_rows saved0 rows).map (process_row ad)).take killAt).length, ?_⟩
        rw [List.take_length]
  · rw [List.getLast?_append]
    rfl

/-- C8 witness: the atomicity theorem applied to a concrete one-row run
interrupted after its first result. -/
theorem thm_C8_witness :
    (run_transformation_disk_trace ⟨FileData.absent, FileData.absent⟩ [] [demoRow1] demoAdapters 1).getLast? =
      some ⟨FileData.complete ([] ++ ((remaining_rows [] [demoRow1]).map (process_row demoAdapters)).take 1),
            FileData.absent⟩ :=
  (thm_C8_atomic_persist ⟨FileData.absent, FileData.absent⟩ [] [demoRow1] demoAdapters 1).2

/-- A row carrying an author and a pages value, to exhibit which fields a
MISSING result echoes. -/
def echoRow : Row :=
  ⟨3, ['a'], some ['1'], some ['J',' ','D','o','e'], none, none, some ['3','2','0']⟩

/-- C9 counterexample: when every adapter query fails, the MISSING result
does NOT have all source metadata fields null — `process_row` echoes the
input row's `authors` and `pages` (and title and isbn) into the record, so
those fields are non-null whenever the input row carries them. -/
theorem thm_C9_counterexample :
    (process_row demoAdapters echoRow).status = Status.MISSING ∧
    (process_row demoAdapters echoRow).authors ≠ none ∧
    (process_row demoAdapters echoRow).pages ≠ none := by
  decide

/-- C9 (amended): per-record adapter failures are absorbed — when every
query of both adapters yields nothing (which covers every raised
transport, parse or status exception), `process_row` still returns a
MISSING result whose provider-sourced fields year, subjects, summary and
publisher are null, while title, authors, isbn and pages echo the input
row (and so are non-null when the row carries them) — and the checked
entry point fails exactly when the input file is missing or the checkpoint
is corrupt. -/
theorem thm_C9_error_handling :
    (∀ (ad : Adapters) (row : Row),
        (∀ s, query_google_books (ad.isbnResp s) = none) →
        (∀ t a, query_google_books (ad.titleResp t a) = none) →
        (process_row ad row).status = Status.MISSING ∧
        (process_row ad row).year = none ∧ (process_row ad row).subjects = none ∧
        (process_row ad row).summary = none ∧ (process_row ad row).publisher = none ∧
        (process_row ad row).title = some row.title ∧
        (process_row ad row).authors = row.authors.map StrOrList.str ∧
        (process_row ad row).isbn = row.isbn ∧
        (process_row ad row).pages = row.pages) ∧
    (∀ (inputExists : Bool) (ckpt : CheckpointFile) (rows : List Row) (ad : Adapters),
        (∃ e, run_transformation_checked inputExists ckpt rows ad = Except.error e) ↔
          (inputExists = false ∨ ckpt = CheckpointFile.corrupt)) := by
  constructor
  · intro ad row h1 h2
    unfold process_row search_by_isbn search_by_title_author
    cases htr : strTruthy row.isbn with
    | none =>
      dsimp only
      rw [h2]
      exact ⟨rfl, rfl, rfl, rfl, rfl, rfl, rfl, rfl, rfl⟩
    | some i =>
      dsimp only
      rw [h1, h2]
      exact ⟨rfl, rfl, rfl, rfl, rfl, rfl, rfl, rfl, rfl⟩
  · intro inputExists ckpt rows ad
    cases inputExists <;> cases ckpt <;>
      simp [run_transformation_checked, load_existing, FileNotFoundMsg]

/-- C9 witness: the absorption statement at the always-raising adapter and
a row that carries an author and a pages value (so the echoed fields are
visibly non-null), and the fatality statement at a corrupt checkpoint. -/
theorem thm_C9_witness :
    ((process_row demoAdapters echoRow).status = Status.MISSING ∧
     (process_row demoAdapters echoRow).year = none ∧
     (process_row demoAdapters echoRow).subjects = none ∧
     (process_row demoAdapters echoRow).summary = none ∧
     (process_row demoAdapters echoRow).publisher = none ∧
     (process_row demoAdapters echoRow).title = some echoRow.title ∧
     (process_row demoAdapters echoRow).authors = echoRow.authors.map StrOrList.str ∧
     (process_row demoAdapters echoRow).isbn = echoRow.isbn ∧
     (process_row demoAdapters echoRow).pages = echoRow.pages) ∧
    ((∃ e, run_transformation_checked false CheckpointFile.corrupt [] demoAdapters = Except.error e) ↔
      (false = false ∨ CheckpointFile.corrupt = CheckpointFile.corrupt)) :=
  ⟨thm_C9_error_handling.1 demoAdapters echoRow (fun _ => rfl) (fun _ _ => rfl),
   thm_C9_error_handling.2 false CheckpointFile.corrupt [] demoAdapters⟩
